import Mathlib

/-!
# Verification of the backlink hub generator (`src/generator/generate.py`)

Shallow embedding of the generator's core: Python strings are modelled as
`List Char` (so that Python's per-character operations become structural
recursion), Python dicts as association lists with Python's
insert-or-overwrite semantics, and the two network probes as total
functions of an explicit network outcome.
-/

set_option autoImplicit false

namespace Hub

/-- Python strings, modelled as lists of characters. -/
abbrev Str := List Char

/-- ASCII whitespace recognised by Python's `str.strip()` and by the
regex class `\s` (space, tab, newline, carriage return, vertical tab,
form feed). -/
def pyWs (c : Char) : Bool :=
  c = ' ' || c = '\t' || c = '\n' || c = '\r' || c = '\x0b' || c = '\x0c'

/-- Python `s.strip()`: drop whitespace from both ends. -/
def strip (s : Str) : Str :=
  ((s.dropWhile pyWs).reverse.dropWhile pyWs).reverse

/-- Python's `a or b` on strings: the empty string is falsy. -/
def pyOr (a b : Str) : Str :=
  if a = [] then b else a

/-- Python `s.lower()` (ASCII case folding suffices here). -/
def lower (s : Str) : Str :=
  s.map Char.toLower

/-- A delimiter of the tag-splitting regex `[,\s]+` in `norm_tags`. -/
def isDelim (c : Char) : Bool :=
  c = ',' || pyWs c

/-- Accumulator worker for `tokens`: scans the string, collecting the
current in-progress token in `acc` (reversed). -/
def tokensAux (acc : Str) : Str → List Str
  | [] => if acc = [] then [] else [acc.reverse]
  | c :: cs =>
    if isDelim c then
      if acc = [] then tokensAux [] cs else acc.reverse :: tokensAux [] cs
    else
      tokensAux (c :: acc) cs

/-- The maximal runs of non-delimiter characters of `s`.  This is the
denotation of `[p.strip() for p in re.split(r"[,\s]+", s) if p.strip()]`:
`re.split` on `[,\s]+` cuts the string at each maximal delimiter run
(producing empty boundary pieces when the string starts or ends with a
delimiter), the guard discards the empty pieces, and the inner `strip`
is the identity because no piece contains whitespace. -/
def tokens (s : Str) : List Str :=
  tokensAux [] s

/-- `norm_tags` (generate.py:39-45): strip, split on commas/whitespace,
drop empties, keep the first 8 tokens, rejoin with commas. -/
def norm_tags (s : Str) : Str :=
  if strip s = [] then []
  else List.intercalate [','] ((tokens (strip s)).take 8)

/-- One pass of Python's `s.replace(c, rep)` for a single-character
needle: every occurrence of `c` is replaced by `rep`. -/
def replaceChar (c : Char) (rep : Str) (s : Str) : Str :=
  s.flatMap (fun x => if x = c then rep else [x])

/-- `escape_html` (generate.py:54-60): the five chained `replace` calls,
ampersand first. -/
def escape_html (s : Str) : Str :=
  replaceChar '\'' "&#39;".toList
    (replaceChar '"' "&quot;".toList
      (replaceChar '>' "&gt;".toList
        (replaceChar '<' "&lt;".toList
          (replaceChar '&' "&amp;".toList s))))

/-- The per-character denotation of the five chained replacements of
`escape_html`: since the replacement strings contain none of the
later-replaced characters, the chain acts independently on each input
character. -/
def escChar (c : Char) : Str :=
  if c = '&' then "&amp;".toList
  else if c = '<' then "&lt;".toList
  else if c = '>' then "&gt;".toList
  else if c = '"' then "&quot;".toList
  else if c = '\'' then "&#39;".toList
  else [c]

/-- `URL_RE.match(url)`: does the string start with `http://` or
`https://`, case-insensitively (regex `^https?://` with `re.I`)? -/
def urlMatch (s : Str) : Bool :=
  (lower s).take 7 = "http://".toList || (lower s).take 8 = "https://".toList

/-- A parsed source record (the dict built in `read_daily_csv`). -/
structure Row where
  date : Str
  url : Str
  note : Str
  tags : Str
  title_hint : Str
deriving DecidableEq, Repr

/-- The body of the `read_daily_csv` loop (generate.py:77-95) for one
CSV line (a list of cell strings): `none` means the row is skipped. -/
def parseLine (line : List Str) : Option Row :=
  if line.length < 2 then none
  else if strip (line.getD 0 []) = [] ∨ strip (line.getD 1 []) = [] then none
  else if ¬ urlMatch (strip (line.getD 1 [])) then none
  else some
    { date := strip (line.getD 0 [])
      url := strip (line.getD 1 [])
      note := if 3 ≤ line.length then strip (line.getD 2 []) else []
      tags := norm_tags (if 4 ≤ line.length then strip (line.getD 3 []) else [])
      title_hint := if 5 ≤ line.length then strip (line.getD 4 []) else [] }

/-- `read_daily_csv` (generate.py:67-96) over an already-decoded CSV
table: keep the rows the loop appends, in source order. -/
def read_daily_csv (lines : List (List Str)) : List Row :=
  lines.filterMap parseLine

/-- The day bucket `by_date[d]` (generate.py:723-725): records whose
date is `d`, in source order (`setdefault(...).append` grouping). -/
def byDate (rows : List Row) (d : Str) : List Row :=
  rows.filter (fun r => r.date = d)

/-- Python's tail slice `l[-n:]` (note `l[-0:]` is the whole list). -/
def tailSlice {α : Type} (n : Nat) (l : List α) : List α :=
  if n = 0 then l else l.drop (l.length - n)

/-- `dates_sorted = sorted(by_date.keys())` (generate.py:740): the
distinct dates, sorted lexicographically. -/
def sortedDates (rows : List Row) : List Str :=
  List.insertionSort (· ≤ ·) (rows.map Row.date).dedup

/-- The day window walked when building `recent_unique`
(generate.py:756): `reversed(dates_sorted[-DAYS_ON_INDEX:])`, newest
day first. -/
def windowDays (rows : List Row) (daysOnIndex : Nat) : List Str :=
  (tailSlice daysOnIndex (sortedDates rows)).reverse

/-- The `seen`-set loop of generate.py:757-762: keep a record only when
its URL has not been seen before. -/
def dedupByUrl (seen : List Str) : List Row → List Row
  | [] => []
  | r :: rs =>
    if r.url ∈ seen then dedupByUrl seen rs
    else r :: dedupByUrl (r.url :: seen) rs

/-- `recent_unique` (generate.py:753-762): walk the window's days
newest-to-oldest, each day's records in source order, first URL
occurrence wins. -/
def recentUnique (rows : List Row) (daysOnIndex : Nat) : List Row :=
  dedupByUrl [] ((windowDays rows daysOnIndex).flatMap (byDate rows))

/-- The days that get a rendered day page: `dates_sorted[-365:]`
(generate.py:765). -/
def renderedDays (rows : List Row) : List Str :=
  tailSlice 365 (sortedDates rows)

/-- The records rendered on day `d`'s page:
`by_date.get(d, [])[:MAX_PER_PAGE]` (generate.py:766). -/
def dayPageItems (rows : List Row) (maxPerPage : Nat) (d : Str) : List Row :=
  (byDate rows d).take maxPerPage

/-- The anchored regex `^\d{4}-\d{2}-\d{2}$` of generate.py:742. -/
def dateRe (d : Str) : Bool :=
  d.length = 10 && d.getD 4 ' ' = '-' && d.getD 7 ' ' = '-' &&
    ([0, 1, 2, 3, 5, 6, 8, 9] : List Nat).all (fun i => (d.getD i ' ').isDigit)

/-- `months_sorted` (generate.py:742): the sorted set of 7-character
prefixes of the dates matching `dateRe`. -/
def monthKeys (rows : List Row) : List Str :=
  List.insertionSort (· ≤ ·)
    (((sortedDates rows).filter dateRe).map (fun d => d.take 7)).dedup

/-- `items_all` (generate.py:834-836): all records, grouped day by day
in sorted-date order. -/
def itemsAll (rows : List Row) : List Row :=
  (sortedDates rows).flatMap (byDate rows)

/-- `month_items` for month page `m` (generate.py:845): records whose
date has 7-character prefix `m`. -/
def monthItems (rows : List Row) (m : Str) : List Row :=
  (itemsAll rows).filter (fun it => it.date.take 7 = m)

/-- The URLs whose records are enriched during a run: the records of
each rendered day page, day by day (generate.py:765-771). -/
def processedUrls (rows : List Row) (maxPerPage : Nat) : List Str :=
  (renderedDays rows).flatMap (fun d => (dayPageItems rows maxPerPage d).map Row.url)

/-! ## The metadata cache -/

/-- One row of the metadata cache: the nine fixed columns of
`write_meta_csv` (generate.py:230). -/
structure MetaRow where
  url : Str
  final_url : Str
  status_code : Str
  content_type : Str
  title : Str
  description : Str
  robots_meta_noindex : Str
  x_robots_tag : Str
  last_fetch_utc : Str
deriving DecidableEq, Repr, Inhabited

/-- `meta_cache`, a Python dict: an association list with distinct keys
in insertion order. -/
abbrev Cache := List (Str × MetaRow)

/-- Python `meta_cache.get(u)`: the value at the key, if present. -/
def dictGet : Cache → Str → Option MetaRow
  | [], _ => none
  | p :: m, u => if p.1 = u then some p.2 else dictGet m u

/-- Python `meta_cache[u] = v`: overwrite in place when the key exists,
otherwise append. -/
def dictInsert (m : Cache) (k : Str) (v : MetaRow) : Cache :=
  if k ∈ m.map Prod.fst then
    m.map (fun p => if p.1 = k then (k, v) else p)
  else m ++ [(k, v)]

/-- `cached_ok` (generate.py:780): the truthiness of
`cached.get("title") or cached.get("description") or
cached.get("robots_meta_noindex")`, with `cached = meta_cache.get(u, {})`
(a missing entry gives `{}`, whose `get`s are all falsy). -/
def cached_ok : Option MetaRow → Bool
  | none => false
  | some r => r.title ≠ [] || r.description ≠ [] || r.robots_meta_noindex ≠ []

/-! ## The network probes -/

/-- Outcome of a `requests` call: a response, or a raised exception
(identified by its type name). -/
inductive NetResult (α : Type) where
  | ok (resp : α)
  | exn (name : Str)

/-- The `f"error:{type(e).__name__}"` marker. -/
def errorMark (e : Str) : Str :=
  "error:".toList ++ e

/-- The fields of an HTTP response inspected by `head_check`. -/
structure HeadResp where
  status_code : Nat
  url : Str
  content_type : Str
  x_robots_tag : Str

/-- Decimal rendering of a status code (`str(status)`). -/
def natStr (n : Nat) : Str :=
  (Nat.repr n).toList

/-- `head_check` (generate.py:121-138) as a function of the network
outcome: on success the tuple `(status, final url, content type,
x-robots-tag, noindex hint)`, on any exception the error tuple of
line 138.  The status slot is rendered to its string form here (the
caller only ever uses `str(status)`). -/
def head_check (net : NetResult HeadResp) : Str × Str × Str × Str × Bool :=
  match net with
  | .ok r =>
    (natStr r.status_code, r.url, r.content_type, r.x_robots_tag,
      decide ("noindex".toList <:+: lower r.x_robots_tag))
  | .exn e => ([], [], [], errorMark e, false)

/-- `fetch_meta` (generate.py:140-214) as a function of the network
outcome.  The success branch (lines 148-203) builds a metadata row from
the response headers and the first `META_MAX_BYTES` bytes of the body;
that parsed row is the oracle payload here, since no claim inspects the
parse itself.  The exception branch is the dict of lines 204-214. -/
def fetch_meta (u : Str) (net : NetResult MetaRow) : MetaRow :=
  match net with
  | .ok m => m
  | .exn e =>
    { url := u, final_url := [], status_code := [], content_type := []
      title := [], description := [], robots_meta_noindex := []
      x_robots_tag := errorMark e, last_fetch_utc := [] }

/-! ## The enrichment step -/

/-- The cache consultation of generate.py:778-784 for one record's URL,
on a network behaviour `net` and fetch timestamp `now`: if `FETCH_META`
is off or the cached entry is complete, nothing happens; otherwise the
content fetch runs and its result, stamped with `now`, overwrites the
cache entry.  Returns the new cache and whether a fetch was performed. -/
def enrichStep (fetchMetaFlag : Bool) (net : Str → NetResult MetaRow) (now : Str)
    (cache : Cache) (u : Str) : Cache × Bool :=
  if fetchMetaFlag then
    if cached_ok (dictGet cache u) then (cache, false)
    else
      let m := fetch_meta u (net u)
      (dictInsert cache u { m with last_fetch_utc := now }, true)
  else (cache, false)

/-- A whole run of the enrichment loop over the processed URLs, in
order; returns the final cache and the URLs that were content-fetched
(with multiplicity). -/
def enrichRun (fetchMetaFlag : Bool) (net : Str → NetResult MetaRow) (now : Str)
    (cache : Cache) : List Str → Cache × List Str
  | [] => (cache, [])
  | u :: us =>
    let step := enrichStep fetchMetaFlag net now cache u
    let rest := enrichRun fetchMetaFlag net now step.1 us
    (rest.1, if step.2 then u :: rest.2 else rest.2)

/-! ## Cache persistence -/

/-- The row normalisation of `write_meta_csv` (generate.py:235):
`{k: (row.get(k) or "") for k in fields}`. -/
def writeRow (r : MetaRow) : MetaRow :=
  { url := pyOr r.url [], final_url := pyOr r.final_url []
    status_code := pyOr r.status_code [], content_type := pyOr r.content_type []
    title := pyOr r.title [], description := pyOr r.description []
    robots_meta_noindex := pyOr r.robots_meta_noindex []
    x_robots_tag := pyOr r.x_robots_tag []
    last_fetch_utc := pyOr r.last_fetch_utc [] }

/-- `write_meta_csv` (generate.py:229-236) at the tabular level: one
data row per cache entry, in dict order.  (The CSV encoding and
decoding of the table itself is the `csv` stdlib module, an external
collaborator; it is the identity on tables.) -/
def write_meta_csv (m : Cache) : List MetaRow :=
  m.map (fun p => writeRow p.2)

/-- `read_meta_csv` (generate.py:216-227) at the tabular level: key
each data row by its stripped `url` column, skipping rows whose url is
blank, with dict assignment semantics. -/
def read_meta_csv (rows : List MetaRow) : Cache :=
  rows.foldl
    (fun acc r =>
      let u := strip r.url
      if u = [] then acc else dictInsert acc u r)
    []

/-! ## Title resolution -/

/-- The stored title of generate.py:786:
`(cached.get("title") or "").strip() or (it.get("title_hint") or "")`. -/
def storedTitle (cachedTitle hint : Str) : Str :=
  pyOr (strip cachedTitle) hint

/-- The displayed title of `build_daily_page` (generate.py:373):
`it.get("title") or it.get("title_hint") or url`. -/
def displayTitle (stored hint url : Str) : Str :=
  pyOr stored (pyOr hint url)

/-! ## Supporting lemmas -/

theorem urlMatch_nil : urlMatch [] = false := by decide

theorem dictGet_replace_ne (m : Cache) (k u : Str) (v : MetaRow) (h : k ≠ u) :
    dictGet (m.map fun p => if p.1 = k then (k, v) else p) u = dictGet m u := by
  induction m with
  | nil => rfl
  | cons p m ih =>
    by_cases hp : p.1 = k
    · simp only [List.map_cons, if_pos hp, dictGet, ih]
      rw [if_neg h, if_neg (fun hq => h (hp.symm.trans hq))]
    · simp only [List.map_cons, if_neg hp, dictGet, ih]

theorem dictGet_append_single_ne (m : Cache) (k u : Str) (v : MetaRow) (h : k ≠ u) :
    dictGet (m ++ [(k, v)]) u = dictGet m u := by
  induction m with
  | nil => simp [dictGet, if_neg h]
  | cons p m ih => by_cases hp : p.1 = u <;> simp [dictGet, hp, ih]

theorem dictGet_replace_self (m : Cache) (k : Str) (v : MetaRow) :
    k ∈ m.map Prod.fst →
    dictGet (m.map fun p => if p.1 = k then (k, v) else p) k = some v := by
  induction m with
  | nil => intro hc; simp at hc
  | cons p m ih =>
    intro hc
    by_cases hp : p.1 = k
    · simp [dictGet, hp]
    · have hc' : k ∈ m.map Prod.fst := by
        rw [List.map_cons, List.mem_cons] at hc
        rcases hc with he | he
        · exact absurd he.symm hp
        · exact he
      simp only [List.map_cons, if_neg hp, dictGet]
      exact ih hc'

theorem dictGet_append_single_self (m : Cache) (k : Str) (v : MetaRow) :
    k ∉ m.map Prod.fst → dictGet (m ++ [(k, v)]) k = some v := by
  induction m with
  | nil => intro _; simp [dictGet]
  | cons p m ih =>
    intro hc
    simp only [List.map_cons, List.mem_cons, not_or] at hc
    simp only [List.cons_append, dictGet]
    rw [if_neg (fun he => hc.1 he.symm)]
    exact ih hc.2

theorem dictGet_dictInsert_ne (m : Cache) (k u : Str) (v : MetaRow) (h : k ≠ u) :
    dictGet (dictInsert m k v) u = dictGet m u := by
  unfold dictInsert
  split_ifs
  · exact dictGet_replace_ne m k u v h
  · exact dictGet_append_single_ne m k u v h

theorem dictGet_dictInsert_self (m : Cache) (k : Str) (v : MetaRow) :
    dictGet (dictInsert m k v) k = some v := by
  unfold dictInsert
  split_ifs with hc
  · exact dictGet_replace_self m k v hc
  · exact dictGet_append_single_self m k v hc

theorem dedupByUrl_nil (seen : List Str) : dedupByUrl seen [] = [] := rfl

theorem dedupByUrl_cons (seen : List Str) (x : Row) (t : List Row) :
    dedupByUrl seen (x :: t) =
      if x.url ∈ seen then dedupByUrl seen t
      else x :: dedupByUrl (x.url :: seen) t := rfl

theorem mem_of_mem_dedupByUrl {l : List Row} : ∀ {seen : List Str} {r : Row},
    r ∈ dedupByUrl seen l → r ∈ l := by
  induction l with
  | nil => intro seen r h; simp [dedupByUrl_nil] at h
  | cons x t ih =>
    intro seen r h
    rw [dedupByUrl_cons] at h
    split_ifs at h with hx
    · exact List.mem_cons_of_mem x (ih h)
    · rcases List.mem_cons.mp h with he | he
      · exact he ▸ List.mem_cons_self x t
      · exact List.mem_cons_of_mem x (ih he)

theorem dedupByUrl_nodup (l : List Row) : ∀ seen : List Str,
    ((dedupByUrl seen l).map Row.url).Nodup ∧
    ∀ u ∈ (dedupByUrl seen l).map Row.url, u ∉ seen := by
  induction l with
  | nil => intro seen; simp [dedupByUrl_nil]
  | cons x t ih =>
    intro seen
    rw [dedupByUrl_cons]
    split_ifs with hx
    · exact ih seen
    · have h := ih (x.url :: seen)
      rw [List.map_cons]
      refine ⟨List.nodup_cons.mpr ⟨?_, h.1⟩, ?_⟩
      · intro hmem
        exact (h.2 x.url hmem) (List.mem_cons_self _ _)
      · intro u hu
        rcases List.mem_cons.mp hu with he | he
        · exact he ▸ hx
        · exact fun hs => h.2 u he (List.mem_cons_of_mem _ hs)

theorem mem_url_dedupByUrl {l : List Row} : ∀ (seen : List Str) {u : Str},
    u ∈ l.map Row.url → u ∈ (dedupByUrl seen l).map Row.url ∨ u ∈ seen := by
  induction l with
  | nil => intro seen u h; simp at h
  | cons x t ih =>
    intro seen u h
    rw [List.map_cons] at h
    rw [dedupByUrl_cons]
    split_ifs with hx
    · rcases List.mem_cons.mp h with he | he
      · exact Or.inr (he ▸ hx)
      · exact ih seen he
    · rcases List.mem_cons.mp h with he | he
      · exact Or.inl (by rw [List.map_cons]; exact he ▸ List.mem_cons_self _ _)
      · rcases ih (x.url :: seen) he with hm | hm
        · exact Or.inl (by rw [List.map_cons]; exact List.mem_cons_of_mem _ hm)
        · rcases List.mem_cons.mp hm with h2 | h2
          · exact Or.inl (by rw [List.map_cons]; exact h2 ▸ List.mem_cons_self _ _)
          · exact Or.inr h2

theorem dedupByUrl_congr {l : List Row} : ∀ {s1 s2 : List Str},
    (∀ u, u ∈ s1 ↔ u ∈ s2) → dedupByUrl s1 l = dedupByUrl s2 l := by
  induction l with
  | nil => intro s1 s2 _; rfl
  | cons x t ih =>
    intro s1 s2 he
    rw [dedupByUrl_cons, dedupByUrl_cons]
    by_cases hx : x.url ∈ s1
    · rw [if_pos hx, if_pos ((he x.url).mp hx)]
      exact ih he
    · rw [if_neg hx, if_neg (fun hc => hx ((he x.url).mpr hc))]
      refine congrArg _ (ih ?_)
      intro u
      simp only [List.mem_cons]
      exact or_congr Iff.rfl (he u)

theorem dedupByUrl_append (a b : List Row) : ∀ seen : List Str,
    dedupByUrl seen (a ++ b) =
      dedupByUrl seen a ++ dedupByUrl (a.map Row.url ++ seen) b := by
  induction a with
  | nil => intro seen; simp [dedupByUrl_nil]
  | cons x t ih =>
    intro seen
    rw [List.cons_append, dedupByUrl_cons, dedupByUrl_cons]
    split_ifs with hx
    · rw [ih seen]
      refine congrArg _ (dedupByUrl_congr ?_)
      intro u
      simp only [List.map_cons, List.cons_append, List.mem_cons]
      constructor
      · exact Or.inr
      · rintro (he | he)
        · exact List.mem_append.mpr (Or.inr (by rw [he]; exact hx))
        · exact he
    · rw [ih (x.url :: seen), List.cons_append]
      refine congrArg _ (congrArg _ (dedupByUrl_congr ?_))
      intro u
      simp only [List.map_cons, List.cons_append, List.mem_cons, List.mem_append]
      tauto

theorem dedupByUrl_find_day (rows : List Row) (ds : List Str) :
    ∀ (seen : List Str) (r : Row),
    r ∈ dedupByUrl seen (ds.flatMap (byDate rows)) →
    ds.find? (fun e => decide (r.url ∈ (byDate rows e).map Row.url)) = some r.date := by
  induction ds with
  | nil => intro seen r h; simp [dedupByUrl_nil] at h
  | cons d t ih =>
    intro seen r h
    rw [List.flatMap_cons, dedupByUrl_append] at h
    rcases List.mem_append.mp h with hm | hm
    · have hblock := mem_of_mem_dedupByUrl hm
      have hdate : r.date = d := of_decide_eq_true (List.mem_filter.mp hblock).2
      have hp : decide (r.url ∈ (byDate rows d).map Row.url) = true :=
        decide_eq_true (List.mem_map_of_mem Row.url hblock)
      rw [List.find?_cons_of_pos t hp, hdate]
    · have hd := dedupByUrl_nodup (t.flatMap (byDate rows))
        ((byDate rows d).map Row.url ++ seen)
      have hnot := hd.2 r.url (List.mem_map_of_mem Row.url hm)
      have hnotblock : r.url ∉ (byDate rows d).map Row.url :=
        fun hc => hnot (List.mem_append.mpr (Or.inl hc))
      rw [List.find?_cons_of_neg t (by simpa using hnotblock)]
      exact ih _ r hm

theorem pyOr_nil_right (a : Str) : pyOr a [] = a := by
  unfold pyOr
  split <;> simp_all

theorem writeRow_eq (r : MetaRow) : writeRow r = r := by
  unfold writeRow
  simp [pyOr_nil_right]

theorem dictInsert_of_notMem (m : Cache) (k : Str) (v : MetaRow)
    (h : k ∉ m.map Prod.fst) : dictInsert m k v = m ++ [(k, v)] := by
  unfold dictInsert
  rw [if_neg h]

theorem read_write_aux (m : Cache) : ∀ acc : Cache,
    ((acc ++ m).map Prod.fst).Nodup →
    (∀ p ∈ m, strip p.2.url = p.1 ∧ p.1 ≠ []) →
    List.foldl
      (fun acc r =>
        let u := strip r.url
        if u = [] then acc else dictInsert acc u r)
      acc (write_meta_csv m) = acc ++ m := by
  induction m with
  | nil => intro acc _ _; simp [write_meta_csv]
  | cons p t ih =>
    intro acc hnd hp
    rcases hp p (List.mem_cons_self _ _) with ⟨hu, hne⟩
    have hdisj : p.1 ∉ acc.map Prod.fst := by
      rw [List.map_append, List.nodup_append] at hnd
      intro hc
      exact hnd.2.2 hc (List.mem_cons_self _ _)
    have hassoc : (acc ++ [p]) ++ t = acc ++ p :: t := by
      rw [List.append_assoc, List.singleton_append]
    have hih := ih (acc ++ [p]) (by rw [hassoc]; exact hnd)
      (fun q hq => hp q (List.mem_cons_of_mem _ hq))
    simp only [write_meta_csv, writeRow_eq, List.map_cons, List.foldl_cons] at hih ⊢
    rw [hu, if_neg hne, dictInsert_of_notMem acc p.1 p.2 hdisj]
    rw [show ((p.1, p.2) : Str × MetaRow) = p from rfl, hih, hassoc]

theorem sortedDates_sorted (rows : List Row) :
    (sortedDates rows).Pairwise (· ≤ ·) :=
  List.sorted_insertionSort _ _

theorem tailSlice_pairwise {α : Type} {R : α → α → Prop} {l : List α} (n : Nat)
    (h : l.Pairwise R) : (tailSlice n l).Pairwise R := by
  unfold tailSlice
  split_ifs
  · exact h
  · exact h.sublist (List.drop_sublist _ _)

theorem windowDays_pairwise (rows : List Row) (n : Nat) :
    (windowDays rows n).Pairwise (fun a b => b ≤ a) := by
  unfold windowDays
  rw [List.pairwise_reverse]
  exact tailSlice_pairwise n (sortedDates_sorted rows)

theorem find?_max_of_sorted_desc {p : Str → Bool} : ∀ {l : List Str},
    l.Pairwise (fun a b => b ≤ a) → ∀ {a : Str}, l.find? p = some a →
    ∀ d ∈ l, p d = true → d ≤ a := by
  intro l
  induction l with
  | nil => intro _ a hf; simp at hf
  | cons b t ih =>
    intro hp a hf d hd hpd
    rcases List.pairwise_cons.mp hp with ⟨hb, ht⟩
    by_cases pb : p b = true
    · rw [List.find?_cons_of_pos t pb] at hf
      cases hf
      rcases List.mem_cons.mp hd with he | he
      · exact le_of_eq he
      · exact hb d he
    · rw [List.find?_cons_of_neg t pb] at hf
      rcases List.mem_cons.mp hd with he | he
      · rw [he] at hpd
        exact absurd hpd pb
      · exact ih ht hf d he hpd

theorem enrichStep_complete (flag : Bool) (net : Str → NetResult MetaRow) (now : Str)
    (cache : Cache) (u : Str) (h : cached_ok (dictGet cache u) = true) :
    enrichStep flag net now cache u = (cache, false) := by
  unfold enrichStep
  split_ifs <;> simp_all

theorem enrichStep_preserves_ne (flag : Bool) (net : Str → NetResult MetaRow) (now : Str)
    (cache : Cache) (w u : Str) (h : w ≠ u) :
    dictGet (enrichStep flag net now cache w).1 u = dictGet cache u := by
  unfold enrichStep
  split_ifs <;> simp [dictGet_dictInsert_ne _ _ _ _ h]

theorem enrichRun_complete (flag : Bool) (net : Str → NetResult MetaRow) (now : Str)
    (us : List Str) : ∀ (cache : Cache) (u : Str),
    cached_ok (dictGet cache u) = true →
    dictGet (enrichRun flag net now cache us).1 u = dictGet cache u ∧
    u ∉ (enrichRun flag net now cache us).2 := by
  induction us with
  | nil => intro cache u _; simp [enrichRun]
  | cons v vs ih =>
    intro cache u h
    by_cases hv : v = u
    · subst hv
      have hs := enrichStep_complete flag net now cache v h
      have hrec := ih cache v h
      simp only [enrichRun, hs]
      exact ⟨hrec.1, by simpa using hrec.2⟩
    · have hpres := enrichStep_preserves_ne flag net now cache v u hv
      have hrec := ih (enrichStep flag net now cache v).1 u (by rw [hpres]; exact h)
      simp only [enrichRun]
      refine ⟨by rw [hrec.1, hpres], ?_⟩
      intro hmem
      split at hmem
      · rcases List.mem_cons.mp hmem with he | he
        · exact hv he.symm
        · exact hrec.2 he
      · exact hrec.2 hmem

theorem tokensAux_nil (acc : Str) :
    tokensAux acc [] = if acc = [] then [] else [acc.reverse] := rfl

theorem tokensAux_cons (acc : Str) (c : Char) (cs : Str) :
    tokensAux acc (c :: cs) =
      if isDelim c then
        (if acc = [] then tokensAux [] cs else acc.reverse :: tokensAux [] cs)
      else tokensAux (c :: acc) cs := rfl

theorem tokensAux_all_ws : ∀ (w : Str), (∀ c ∈ w, pyWs c = true) →
    ∀ acc, tokensAux acc w = if acc = [] then [] else [acc.reverse] := by
  intro w
  induction w with
  | nil => intro _ acc; exact tokensAux_nil acc
  | cons c cs ih =>
    intro hw acc
    have hc : isDelim c = true := by
      unfold isDelim
      rw [hw c (List.mem_cons_self _ _)]
      simp
    rw [tokensAux_cons, if_pos hc]
    have h0 : tokensAux [] cs = [] := by
      rw [ih (fun d hd => hw d (List.mem_cons_of_mem _ hd)) []]
      simp
    by_cases ha : acc = []
    · rw [if_pos ha, if_pos ha]
      exact h0
    · rw [if_neg ha, if_neg ha, h0]

theorem tokensAux_append_ws {w : Str} (hw : ∀ c ∈ w, pyWs c = true) :
    ∀ (s acc : Str), tokensAux acc (s ++ w) = tokensAux acc s := by
  intro s
  induction s with
  | nil =>
    intro acc
    rw [List.nil_append, tokensAux_all_ws w hw acc, tokensAux_nil]
  | cons c cs ih =>
    intro acc
    rw [List.cons_append, tokensAux_cons, tokensAux_cons]
    by_cases hc : isDelim c = true
    · rw [if_pos hc, if_pos hc]
      by_cases ha : acc = []
      · rw [if_pos ha, if_pos ha, ih []]
      · rw [if_neg ha, if_neg ha, ih []]
    · rw [if_neg hc, if_neg hc]
      exact ih (c :: acc)

theorem tokensAux_ws_append : ∀ (w : Str), (∀ c ∈ w, pyWs c = true) →
    ∀ s : Str, tokensAux [] (w ++ s) = tokensAux [] s := by
  intro w
  induction w with
  | nil => intro _ s; rw [List.nil_append]
  | cons c cs ih =>
    intro hw s
    have hc : isDelim c = true := by
      unfold isDelim
      rw [hw c (List.mem_cons_self _ _)]
      simp
    rw [List.cons_append, tokensAux_cons, if_pos hc, if_pos rfl]
    exact ih (fun d hd => hw d (List.mem_cons_of_mem _ hd)) s

theorem tokens_strip (s : Str) : tokens (strip s) = tokens s := by
  have htake : ∀ c ∈ s.takeWhile pyWs, pyWs c = true :=
    fun c hc => List.mem_takeWhile_imp hc
  have htake2 : ∀ c ∈ ((s.dropWhile pyWs).reverse.takeWhile pyWs).reverse, pyWs c = true :=
    fun c hc => List.mem_takeWhile_imp (List.mem_reverse.mp hc)
  have hdecomp : s.dropWhile pyWs =
      strip s ++ ((s.dropWhile pyWs).reverse.takeWhile pyWs).reverse := by
    unfold strip
    rw [← List.reverse_append, List.takeWhile_append_dropWhile, List.reverse_reverse]
  unfold tokens
  rw [← tokensAux_append_ws htake2 (strip s) [], ← hdecomp,
    ← tokensAux_ws_append (s.takeWhile pyWs) htake (s.dropWhile pyWs),
    List.takeWhile_append_dropWhile]

theorem tokensAux_ok : ∀ (s acc : Str), (∀ c ∈ acc, isDelim c = false) →
    ∀ t ∈ tokensAux acc s, t ≠ [] ∧ ∀ c ∈ t, isDelim c = false := by
  intro s
  induction s with
  | nil =>
    intro acc hacc t ht
    rw [tokensAux_nil] at ht
    split_ifs at ht with ha
    · simp at ht
    · simp only [List.mem_cons, List.not_mem_nil, or_false] at ht
      subst ht
      exact ⟨by simpa using ha, fun c hc => hacc c (List.mem_reverse.mp hc)⟩
  | cons c cs ih =>
    intro acc hacc t ht
    rw [tokensAux_cons] at ht
    split_ifs at ht with hc ha
    · exact ih [] (by simp) t ht
    · rcases List.mem_cons.mp ht with he | he
      · subst he
        exact ⟨by simpa using ha, fun d hd => hacc d (List.mem_reverse.mp hd)⟩
      · exact ih [] (by simp) t he
    · refine ih (c :: acc) ?_ t ht
      intro d hd
      rcases List.mem_cons.mp hd with he | he
      · subst he
        simpa using hc
      · exact hacc d he

theorem tokensAux_token_append : ∀ (t : Str), (∀ c ∈ t, isDelim c = false) →
    ∀ (rest acc : Str), tokensAux acc (t ++ rest) = tokensAux (t.reverse ++ acc) rest := by
  intro t
  induction t with
  | nil => intro _ rest acc; rw [List.nil_append, List.reverse_nil, List.nil_append]
  | cons c t' ih =>
    intro ht rest acc
    have hc : isDelim c = false := ht c (List.mem_cons_self _ _)
    rw [List.cons_append, tokensAux_cons, if_neg (by simp [hc]),
      ih (fun d hd => ht d (List.mem_cons_of_mem _ hd)) rest (c :: acc)]
    congr 1
    rw [List.reverse_cons, List.append_assoc, List.singleton_append]

theorem tokens_single (t : Str) (hne : t ≠ []) (ht : ∀ c ∈ t, isDelim c = false) :
    tokens t = [t] := by
  unfold tokens
  have h := tokensAux_token_append t ht [] []
  rw [List.append_nil, List.append_nil] at h
  rw [h, tokensAux_nil, if_neg (by simpa using hne), List.reverse_reverse]

theorem tokens_intercalate : ∀ (ts : List Str),
    (∀ t ∈ ts, t ≠ [] ∧ ∀ c ∈ t, isDelim c = false) →
    tokens (List.intercalate [','] ts) = ts := by
  intro ts
  induction ts with
  | nil => intro _; rfl
  | cons t ts' ih =>
    intro h
    rcases h t (List.mem_cons_self _ _) with ⟨hne, hok⟩
    cases ts' with
    | nil =>
      rw [show List.intercalate [','] [t] = t from by simp [List.intercalate]]
      exact tokens_single t hne hok
    | cons t2 ts'' =>
      have hstep : List.intercalate [','] (t :: t2 :: ts'') =
          t ++ ',' :: List.intercalate [','] (t2 :: ts'') := by
        simp [List.intercalate, List.intersperse_cons_cons]
      rw [hstep]
      unfold tokens
      rw [tokensAux_token_append t hok (',' :: List.intercalate [','] (t2 :: ts'')) [],
        List.append_nil, tokensAux_cons, if_pos (by decide), if_neg (by simpa using hne),
        List.reverse_reverse]
      congr 1
      exact ih (fun q hq => h q (List.mem_cons_of_mem _ hq))

theorem strip_eq_self_of_no_ws (s : Str) (h : ∀ c ∈ s, pyWs c = false) :
    strip s = s := by
  have key : ∀ l : Str, (∀ c ∈ l, pyWs c = false) → l.dropWhile pyWs = l := by
    intro l hl
    cases l with
    | nil => rfl
    | cons c cs =>
      exact List.dropWhile_cons_of_neg (by simp [hl c (List.mem_cons_self _ _)])
  unfold strip
  rw [key s h, key s.reverse (fun c hc => h c (List.mem_reverse.mp hc)),
    List.reverse_reverse]

theorem mem_intersperse {β : Type} {sep x : β} : ∀ {l : List β},
    x ∈ List.intersperse sep l → x = sep ∨ x ∈ l := by
  intro l
  induction l with
  | nil => intro h; simp at h
  | cons a t ih =>
    intro h
    cases t with
    | nil =>
      rw [show List.intersperse sep [a] = [a] from rfl] at h
      simp only [List.mem_cons, List.not_mem_nil, or_false] at h
      exact Or.inr (by rw [h]; exact List.mem_cons_self _ _)
    | cons b t' =>
      rw [List.intersperse_cons_cons] at h
      rcases List.mem_cons.mp h with he | he
      · exact Or.inr (by rw [he]; exact List.mem_cons_self _ _)
      · rcases List.mem_cons.mp he with he2 | he2
        · exact Or.inl he2
        · rcases ih he2 with h3 | h3
          · exact Or.inl h3
          · exact Or.inr (List.mem_cons_of_mem _ h3)

theorem mem_intercalate_comma {ts : List Str} {c : Char}
    (hc : c ∈ List.intercalate [','] ts) : c = ',' ∨ ∃ t ∈ ts, c ∈ t := by
  unfold List.intercalate at hc
  rcases List.mem_flatten.mp hc with ⟨x, hx, hcx⟩
  rcases mem_intersperse hx with he | he
  · rw [he] at hcx
    simp only [List.mem_cons, List.not_mem_nil, or_false] at hcx
    exact Or.inl hcx
  · exact Or.inr ⟨x, he, hcx⟩

theorem tokens_eq_nil_of_strip_nil (u : Str) (h : strip u = []) : tokens u = [] := by
  rw [← tokens_strip u, h]
  rfl

theorem norm_tags_eq (s : Str) :
    norm_tags s = List.intercalate [','] ((tokens s).take 8) := by
  unfold norm_tags
  split_ifs with h
  · rw [tokens_eq_nil_of_strip_nil s h]
    rfl
  · rw [tokens_strip]

theorem norm_tags_norm_tags (s : Str) : norm_tags (norm_tags s) = norm_tags s := by
  by_cases h : strip s = []
  · have h1 : norm_tags s = [] := by
      unfold norm_tags
      rw [if_pos h]
    rw [h1]
    rfl
  · have h1 : norm_tags s = List.intercalate [','] ((tokens (strip s)).take 8) := by
      unfold norm_tags
      rw [if_neg h]
    have hts : ∀ t ∈ (tokens (strip s)).take 8, t ≠ [] ∧ ∀ c ∈ t, isDelim c = false :=
      fun t ht => tokensAux_ok (strip s) [] (by simp) t (List.take_subset _ _ ht)
    by_cases hts0 : (tokens (strip s)).take 8 = []
    · rw [h1, hts0]
      rfl
    · have hchars : ∀ c ∈ List.intercalate [','] ((tokens (strip s)).take 8),
          pyWs c = false := by
        intro c hc
        rcases mem_intercalate_comma hc with he | ⟨t, ht, hct⟩
        · subst he
          decide
        · have hd := (hts t ht).2 c hct
          revert hd
          unfold isDelim
          cases pyWs c <;> simp
      have hstrip := strip_eq_self_of_no_ws _ hchars
      have htok := tokens_intercalate _ hts
      have hne : List.intercalate [','] ((tokens (strip s)).take 8) ≠ [] := by
        intro hnil
        rw [hnil] at htok
        exact hts0 htok.symm
      rw [h1]
      unfold norm_tags
      rw [if_neg (by rw [hstrip]; exact hne), hstrip, htok, List.take_take]
      norm_num

theorem replaceChar_append (c : Char) (rep : Str) (a b : Str) :
    replaceChar c rep (a ++ b) = replaceChar c rep a ++ replaceChar c rep b := by
  simp [replaceChar]

theorem escape_html_append (a b : Str) :
    escape_html (a ++ b) = escape_html a ++ escape_html b := by
  simp only [escape_html, replaceChar_append]

theorem escape_html_single (c : Char) : escape_html [c] = escChar c := by
  unfold escChar
  split_ifs with h1 h2 h3 h4 h5
  · subst h1; decide
  · subst h2; decide
  · subst h3; decide
  · subst h4; decide
  · subst h5; decide
  · simp [escape_html, replaceChar, h1, h2, h3, h4, h5]

theorem escape_html_eq_flatMap (s : Str) : escape_html s = s.flatMap escChar := by
  induction s with
  | nil => rfl
  | cons c t ih =>
    have h : escape_html (c :: t) = escape_html [c] ++ escape_html t :=
      escape_html_append [c] t
    rw [h, escape_html_single, ih, List.flatMap_cons]

theorem escChar_no_special {c y : Char} (hy : y ∈ escChar c) :
    y ≠ '<' ∧ y ≠ '>' ∧ y ≠ '"' ∧ y ≠ '\'' := by
  unfold escChar at hy
  split_ifs at hy with h1 h2 h3 h4 h5
  · rw [show "&amp;".toList = ['&', 'a', 'm', 'p', ';'] from rfl] at hy
    simp only [List.mem_cons, List.not_mem_nil, or_false] at hy
    rcases hy with rfl | rfl | rfl | rfl | rfl <;> decide
  · rw [show "&lt;".toList = ['&', 'l', 't', ';'] from rfl] at hy
    simp only [List.mem_cons, List.not_mem_nil, or_false] at hy
    rcases hy with rfl | rfl | rfl | rfl <;> decide
  · rw [show "&gt;".toList = ['&', 'g', 't', ';'] from rfl] at hy
    simp only [List.mem_cons, List.not_mem_nil, or_false] at hy
    rcases hy with rfl | rfl | rfl | rfl <;> decide
  · rw [show "&quot;".toList = ['&', 'q', 'u', 'o', 't', ';'] from rfl] at hy
    simp only [List.mem_cons, List.not_mem_nil, or_false] at hy
    rcases hy with rfl | rfl | rfl | rfl | rfl | rfl <;> decide
  · rw [show "&#39;".toList = ['&', '#', '3', '9', ';'] from rfl] at hy
    simp only [List.mem_cons, List.not_mem_nil, or_false] at hy
    rcases hy with rfl | rfl | rfl | rfl | rfl <;> decide
  · simp only [List.mem_cons, List.not_mem_nil, or_false] at hy
    subst hy
    exact ⟨h2, h3, h4, h5⟩

theorem eq_nil_of_amp_split {xs a w : Str} (hxs : '&' ∉ xs)
    (h : ('&' :: xs) = a ++ '&' :: w) : a = [] := by
  cases a with
  | nil => rfl
  | cons y a' =>
    rw [List.cons_append] at h
    injection h with h1 h2
    exact absurd (h2 ▸ List.mem_append.mpr (Or.inr (List.mem_cons_self _ _))) hxs

theorem escChar_shape (c : Char) :
    (escChar c = [c] ∧ c ≠ '&') ∨
    (escChar c ∈ ["&amp;".toList, "&lt;".toList, "&gt;".toList, "&quot;".toList,
        "&#39;".toList] ∧
      ∃ tail, escChar c = '&' :: tail ∧ '&' ∉ tail) := by
  unfold escChar
  split_ifs with h1 h2 h3 h4 h5
  · exact Or.inr ⟨by decide, "amp;".toList, by decide, by decide⟩
  · exact Or.inr ⟨by decide, "lt;".toList, by decide, by decide⟩
  · exact Or.inr ⟨by decide, "gt;".toList, by decide, by decide⟩
  · exact Or.inr ⟨by decide, "quot;".toList, by decide, by decide⟩
  · exact Or.inr ⟨by decide, "#39;".toList, by decide, by decide⟩
  · exact Or.inl ⟨rfl, h1⟩

theorem flatMap_escChar_amp (s : Str) : ∀ (a b : Str),
    s.flatMap escChar = a ++ '&' :: b →
    ∃ e ∈ ["&amp;".toList, "&lt;".toList, "&gt;".toList, "&quot;".toList,
      "&#39;".toList], e <+: ('&' :: b) := by
  induction s with
  | nil =>
    intro a b h
    exact absurd h.symm (by simp)
  | cons c t ih =>
    intro a b h
    rw [List.flatMap_cons] at h
    rcases List.append_eq_append_iff.mp h with ⟨w, hw1, hw2⟩ | ⟨w, hw1, hw2⟩
    · exact ih w b hw2
    · cases w with
      | nil =>
        rw [List.nil_append] at hw2
        exact ih [] b hw2.symm
      | cons x w' =>
        rw [List.cons_append] at hw2
        injection hw2 with hx hb
        subst hx
        rcases escChar_shape c with ⟨he, hne⟩ | ⟨hm, tail, hform, hnoamp⟩
        · rw [he] at hw1
          cases a with
          | nil =>
            rw [List.nil_append] at hw1
            injection hw1 with hc _
            exact absurd hc hne
          | cons y a' =>
            rw [List.cons_append] at hw1
            injection hw1 with _ hnil
            simp at hnil
        · rw [hform] at hw1
          have ha : a = [] := eq_nil_of_amp_split hnoamp hw1
          subst ha
          rw [List.nil_append] at hw1
          injection hw1 with _ htail
          refine ⟨escChar c, hm, t.flatMap escChar, ?_⟩
          rw [hform, htail, List.cons_append, ← hb]

/-! ## Claim theorems -/

/-- C1: if a URL's cache entry is complete (non-empty title, or
description, or robots meta), an enrichment run neither content-fetches
that URL nor changes its entry, so a second run over the same URLs also
performs zero fetches for it; and whenever a URL's entry is absent or
incomplete (with metadata fetching enabled), the consultation step
fetches it and overwrites the entry with the fetch result — success or
failure — stamped with the fetch time. -/
theorem C1_complete_cache_never_refetched (flag : Bool) (net : Str → NetResult MetaRow)
    (now now2 : Str) (cache : Cache) (us : List Str) (u : Str)
    (h : cached_ok (dictGet cache u) = true) :
    (dictGet (enrichRun flag net now cache us).1 u = dictGet cache u ∧
      u ∉ (enrichRun flag net now cache us).2) ∧
    u ∉ (enrichRun flag net now2 (enrichRun flag net now cache us).1 us).2 ∧
    (∀ (cache' : Cache) (v : Str), cached_ok (dictGet cache' v) = false →
      enrichStep true net now cache' v =
        (dictInsert cache' v { fetch_meta v (net v) with last_fetch_utc := now }, true) ∧
      dictGet (enrichStep true net now cache' v).1 v =
        some { fetch_meta v (net v) with last_fetch_utc := now }) := by
  have h1 := enrichRun_complete flag net now us cache u h
  refine ⟨h1, ?_, ?_⟩
  · have h2 := enrichRun_complete flag net now2 us (enrichRun flag net now cache us).1 u
      (by rw [h1.1]; exact h)
    exact h2.2
  · intro cache' v hv
    have hstep : enrichStep true net now cache' v =
        (dictInsert cache' v { fetch_meta v (net v) with last_fetch_utc := now }, true) := by
      unfold enrichStep
      rw [if_pos rfl, if_neg (by simp [hv])]
    exact ⟨hstep, by rw [hstep]; exact dictGet_dictInsert_self _ _ _⟩

/-- Witness for C1 at a concrete input: a cache holding a complete
entry for `https://a` is untouched by a run over `[https://a]` with an
always-failing network, while a URL with no entry gets fetched and its
error row is recorded with the timestamp. -/
theorem C1_complete_cache_never_refetched_witness :
    cached_ok (dictGet [("https://a".toList,
        { url := "https://a".toList, final_url := [], status_code := [], content_type := []
          title := "T".toList, description := [], robots_meta_noindex := []
          x_robots_tag := [], last_fetch_utc := [] })] "https://a".toList) = true ∧
    "https://a".toList ∉
      (enrichRun true (fun _ => NetResult.exn "Timeout".toList) "t1".toList
        [("https://a".toList,
          { url := "https://a".toList, final_url := [], status_code := [], content_type := []
            title := "T".toList, description := [], robots_meta_noindex := []
            x_robots_tag := [], last_fetch_utc := [] })] ["https://a".toList]).2 := by
  have h := C1_complete_cache_never_refetched true
    (fun _ => NetResult.exn "Timeout".toList) "t1".toList "t2".toList
    [("https://a".toList,
      { url := "https://a".toList, final_url := [], status_code := [], content_type := []
        title := "T".toList, description := [], robots_meta_noindex := []
        x_robots_tag := [], last_fetch_utc := [] })]
    ["https://a".toList] "https://a".toList (by decide)
  exact ⟨by decide, h.1.2⟩

/-- C5: for every rendered record, the displayed title is the cached
fetched title if non-empty (stripped), otherwise the operator-supplied
title hint if non-empty, otherwise the raw URL — and it is never
blank. -/
theorem C5_title_resolution (cachedTitle hint url : Str) (h : url ≠ []) :
    displayTitle (storedTitle cachedTitle hint) hint url =
      (if strip cachedTitle ≠ [] then strip cachedTitle
       else if hint ≠ [] then hint else url) ∧
    displayTitle (storedTitle cachedTitle hint) hint url ≠ [] := by
  unfold displayTitle storedTitle pyOr
  split_ifs <;> simp_all

/-- Witness for C5 at a concrete input: empty cached title and hint
resolve to the raw URL. -/
theorem C5_title_resolution_witness :
    ("https://a".toList : Str) ≠ [] ∧
    displayTitle (storedTitle [] []) [] "https://a".toList = "https://a".toList := by
  have h := C5_title_resolution [] [] "https://a".toList (by decide)
  exact ⟨by decide, by simpa using h.1⟩

/-- C4: an exception in either network probe is absorbed: `head_check`
returns blank status/final-url/content-type with the
`error:<ExceptionTypeName>` marker in the x-robots-tag slot, and
`fetch_meta` returns a row whose metadata fields are all empty except
the same marker; neither probe propagates the exception (both are total
on the exception outcome). -/
theorem C4_probe_errors_absorbed (u e : Str) :
    head_check (.exn e) = ([], [], [], errorMark e, false) ∧
    (fetch_meta u (.exn e)).final_url = [] ∧
    (fetch_meta u (.exn e)).status_code = [] ∧
    (fetch_meta u (.exn e)).content_type = [] ∧
    (fetch_meta u (.exn e)).title = [] ∧
    (fetch_meta u (.exn e)).description = [] ∧
    (fetch_meta u (.exn e)).robots_meta_noindex = [] ∧
    (fetch_meta u (.exn e)).x_robots_tag = errorMark e :=
  ⟨rfl, rfl, rfl, rfl, rfl, rfl, rfl, rfl⟩

/-- C2: the recent-unique list (built by walking the window's days
newest-to-oldest and, within each day, records in source order, adding
a record only when its URL is unseen) never holds the same URL twice,
and each retained record comes from the first (hence most recent)
window day containing its URL: every window day containing the URL is
lexicographically at most the retained record's date. -/
theorem C2_recent_unique_newest_wins (rows : List Row) (n : Nat) (r : Row)
    (h : r ∈ recentUnique rows n) :
    ((recentUnique rows n).map Row.url).Nodup ∧
    r ∈ rows ∧
    (windowDays rows n).find?
      (fun e => decide (r.url ∈ (byDate rows e).map Row.url)) = some r.date ∧
    ∀ d ∈ windowDays rows n, r.url ∈ (byDate rows d).map Row.url → d ≤ r.date := by
  have hfind := dedupByUrl_find_day rows (windowDays rows n) [] r h
  refine ⟨(dedupByUrl_nodup _ []).1, ?_, hfind, ?_⟩
  · have hm := mem_of_mem_dedupByUrl h
    rcases List.mem_flatMap.mp hm with ⟨d, _, hmem⟩
    exact (List.mem_filter.mp hmem).1
  · intro d hd hpd
    exact find?_max_of_sorted_desc (windowDays_pairwise rows n) hfind d hd
      (decide_eq_true hpd)

/-- Witness for C2 at a concrete input: with the same URL on two days,
the retained record is the 2024-01-02 one and the URL list is
duplicate-free. -/
theorem C2_recent_unique_newest_wins_witness :
    (⟨"2024-01-02".toList, "https://a".toList, [], [], []⟩ : Row) ∈
      recentUnique
        [⟨"2024-01-01".toList, "https://a".toList, [], [], []⟩,
          ⟨"2024-01-02".toList, "https://a".toList, [], [], []⟩] 45 ∧
    ((recentUnique
        [⟨"2024-01-01".toList, "https://a".toList, [], [], []⟩,
          ⟨"2024-01-02".toList, "https://a".toList, [], [], []⟩] 45).map Row.url).Nodup := by
  have h := C2_recent_unique_newest_wins
    [⟨"2024-01-01".toList, "https://a".toList, [], [], []⟩,
      ⟨"2024-01-02".toList, "https://a".toList, [], [], []⟩] 45
    ⟨"2024-01-02".toList, "https://a".toList, [], [], []⟩ (by decide)
  exact ⟨by decide, h.1⟩

/-- C7: each rendered day page holds at most the configured maximum of
records, keeping a prefix (the earliest, in source order) of the day's
bucket; records beyond the cap still participate in the other
aggregations — any record of a window day, capped away or not, has its
URL in the recent-unique list. -/
theorem C7_day_page_cap (rows : List Row) (maxPerPage n : Nat) (d : Str) (r : Row)
    (hr : r ∈ rows) (hd : r.date ∈ windowDays rows n) :
    (dayPageItems rows maxPerPage d).length ≤ maxPerPage ∧
    dayPageItems rows maxPerPage d <+: byDate rows d ∧
    r.url ∈ (recentUnique rows n).map Row.url := by
  refine ⟨List.length_take_le _ _, List.take_prefix _ _, ?_⟩
  have hmem : r.url ∈ ((windowDays rows n).flatMap (byDate rows)).map Row.url := by
    refine List.mem_map_of_mem Row.url ?_
    refine List.mem_flatMap.mpr ⟨r.date, hd, ?_⟩
    exact List.mem_filter.mpr ⟨hr, by simp⟩
  rcases mem_url_dedupByUrl [] hmem with hm | hm
  · exact hm
  · simp at hm

/-- Witness for C7 at a concrete input: with a per-page cap of 1 and
two same-day records, the page keeps one record yet the second
record's URL still reaches the recent-unique list. -/
theorem C7_day_page_cap_witness :
    (dayPageItems
        [⟨"2024-01-02".toList, "https://a".toList, [], [], []⟩,
          ⟨"2024-01-02".toList, "https://b".toList, [], [], []⟩] 1
        "2024-01-02".toList).length ≤ 1 ∧
    "https://b".toList ∈
      (recentUnique
        [⟨"2024-01-02".toList, "https://a".toList, [], [], []⟩,
          ⟨"2024-01-02".toList, "https://b".toList, [], [], []⟩] 45).map Row.url := by
  have h := C7_day_page_cap
    [⟨"2024-01-02".toList, "https://a".toList, [], [], []⟩,
      ⟨"2024-01-02".toList, "https://b".toList, [], [], []⟩] 1 45
    "2024-01-02".toList ⟨"2024-01-02".toList, "https://b".toList, [], [], []⟩
    (by decide) (by decide)
  exact ⟨h.1, h.2.2⟩

theorem mem_itemsAll {rows : List Row} {r : Row} : r ∈ itemsAll rows ↔ r ∈ rows := by
  constructor
  · intro h
    rcases List.mem_flatMap.mp h with ⟨d, _, hmem⟩
    exact (List.mem_filter.mp hmem).1
  · intro h
    refine List.mem_flatMap.mpr ⟨r.date, ?_, ?_⟩
    · unfold sortedDates
      rw [(List.perm_insertionSort _ _).mem_iff, List.mem_dedup]
      exact List.mem_map_of_mem Row.date h
    · exact List.mem_filter.mpr ⟨h, by simp⟩

/-- C6 (amended): month keys come exactly from the dates matching the
strict `^\d{4}-\d{2}-\d{2}$` pattern (a non-conforming date contributes
no month key), and a record belongs to month page `m`'s record set iff
its date's 7-character prefix is `m` — so a record with a non-conforming
date does appear on a month page when its prefix coincides with a month
key derived from some conforming date; its day bucket always holds
it. -/
theorem C6_month_grouping_amended (rows : List Row) (m : Str) (r : Row)
    (hr : r ∈ rows) :
    (m ∈ monthKeys rows ↔ ∃ d ∈ rows.map Row.date, dateRe d = true ∧ d.take 7 = m) ∧
    (r ∈ monthItems rows m ↔ r.date.take 7 = m) ∧
    r ∈ byDate rows r.date := by
  have hsd : ∀ d, d ∈ sortedDates rows ↔ d ∈ rows.map Row.date := by
    intro d
    unfold sortedDates
    rw [(List.perm_insertionSort _ _).mem_iff, List.mem_dedup]
  refine ⟨⟨?_, ?_⟩, ⟨?_, ?_⟩, List.mem_filter.mpr ⟨hr, by simp⟩⟩
  · intro hm
    unfold monthKeys at hm
    rw [(List.perm_insertionSort _ _).mem_iff, List.mem_dedup] at hm
    rcases List.mem_map.mp hm with ⟨d, hd, he⟩
    rcases List.mem_filter.mp hd with ⟨hd1, hd2⟩
    exact ⟨d, (hsd d).mp hd1, hd2, he⟩
  · rintro ⟨d, hd, hre, he⟩
    unfold monthKeys
    rw [(List.perm_insertionSort _ _).mem_iff, List.mem_dedup]
    exact List.mem_map.mpr ⟨d, List.mem_filter.mpr ⟨(hsd d).mpr hd, hre⟩, he⟩
  · intro hm
    exact of_decide_eq_true (List.mem_filter.mp hm).2
  · intro hp
    exact List.mem_filter.mpr ⟨mem_itemsAll.mpr hr, decide_eq_true hp⟩

/-- Counterexample to C6 as stated: the non-conforming date
`2024-01-XX` contributes no month key, yet its record lies in the
record set of the rendered month page `2024-01` (derived from the
conforming date `2024-01-15`), because month membership tests only the
7-character prefix. -/
theorem C6_month_grouping_counterexample :
    dateRe "2024-01-XX".toList = false ∧
    "2024-01".toList ∈ monthKeys
      [⟨"2024-01-15".toList, "https://a".toList, [], [], []⟩,
        ⟨"2024-01-XX".toList, "https://b".toList, [], [], []⟩] ∧
    (⟨"2024-01-XX".toList, "https://b".toList, [], [], []⟩ : Row) ∈
      monthItems
        [⟨"2024-01-15".toList, "https://a".toList, [], [], []⟩,
          ⟨"2024-01-XX".toList, "https://b".toList, [], [], []⟩]
        "2024-01".toList := by
  decide

/-- Witness for C6 (amended) at a concrete input. -/
theorem C6_month_grouping_witness :
    "2024-01".toList ∈ monthKeys
      [⟨"2024-01-15".toList, "https://a".toList, [], [], []⟩] ∧
    (⟨"2024-01-15".toList, "https://a".toList, [], [], []⟩ : Row) ∈
      monthItems [⟨"2024-01-15".toList, "https://a".toList, [], [], []⟩]
        "2024-01".toList := by
  have h := C6_month_grouping_amended
    [⟨"2024-01-15".toList, "https://a".toList, [], [], []⟩] "2024-01".toList
    ⟨"2024-01-15".toList, "https://a".toList, [], [], []⟩ (by decide)
  exact ⟨h.1.mpr ⟨"2024-01-15".toList, by decide, by decide, by decide⟩,
    h.2.1.mpr (by decide)⟩

/-- C3: a source row yields a record iff it has at least two columns, a
non-empty (stripped) date, and a non-empty URL with an `http(s)://`
prefix; rejected rows are silently dropped (parsing is total), the
surviving records keep source order (the reader is an append
homomorphism), and a record lies in the bucket of exactly its own
date. -/
theorem C3_row_filtering (line : List Str) (l1 l2 : List (List Str))
    (rows : List Row) (d : Str) (rcd : Row) :
    ((∃ row, parseLine line = some row) ↔
      (2 ≤ line.length ∧ strip (line.getD 0 []) ≠ [] ∧
        strip (line.getD 1 []) ≠ [] ∧ urlMatch (strip (line.getD 1 [])) = true)) ∧
    read_daily_csv (l1 ++ l2) = read_daily_csv l1 ++ read_daily_csv l2 ∧
    (rcd ∈ byDate rows d ↔ (rcd ∈ rows ∧ rcd.date = d)) := by
  refine ⟨?_, by simp [read_daily_csv], by simp [byDate]⟩
  constructor
  · rintro ⟨row, h⟩
    unfold parseLine at h
    by_cases hlen : line.length < 2
    · rw [if_pos hlen] at h
      exact absurd h (by simp)
    rw [if_neg hlen] at h
    by_cases hde : strip (line.getD 0 []) = [] ∨ strip (line.getD 1 []) = []
    · rw [if_pos hde] at h
      exact absurd h (by simp)
    rw [if_neg hde] at h
    push_neg at hde
    by_cases hm : urlMatch (strip (line.getD 1 [])) = true
    · exact ⟨by omega, hde.1, hde.2, hm⟩
    · rw [if_pos hm] at h
      exact absurd h (by simp)
  · rintro ⟨h1, h2, h3, h4⟩
    rw [← Option.isSome_iff_exists]
    unfold parseLine
    rw [if_neg (by omega), if_neg (by push_neg; exact ⟨h2, h3⟩),
      if_neg (fun hc => hc h4)]
    rfl

/-- Witness for C3 at concrete inputs: a well-formed two-column row
parses, and a concrete record sits in its own day's bucket. -/
theorem C3_row_filtering_witness :
    (∃ row, parseLine ["2024-01-02".toList, "https://a".toList] = some row) ∧
    read_daily_csv ([["2024-01-02".toList, "https://a".toList]] ++ [["x".toList]]) =
      read_daily_csv [["2024-01-02".toList, "https://a".toList]] ++
        read_daily_csv [["x".toList]] ∧
    (⟨"2024-01-02".toList, "https://a".toList, [], [], []⟩ : Row) ∈
      byDate [⟨"2024-01-02".toList, "https://a".toList, [], [], []⟩] "2024-01-02".toList := by
  have h := C3_row_filtering ["2024-01-02".toList, "https://a".toList]
    [["2024-01-02".toList, "https://a".toList]] [["x".toList]]
    [⟨"2024-01-02".toList, "https://a".toList, [], [], []⟩] "2024-01-02".toList
    ⟨"2024-01-02".toList, "https://a".toList, [], [], []⟩
  exact ⟨h.1.mpr (by decide), h.2.1, h.2.2.mpr (by decide)⟩

/-- C9 (amended): cache persistence round-trips for every URL-keyed
mapping whose (distinct, as in a Python dict) keys are exactly the
stripped `url` column of their entry and are non-empty: writing the
cache table and reading it back restores the mapping — same keys, same
values on all nine columns. -/
theorem C9_cache_roundtrip_amended (m : Cache)
    (hk : (m.map Prod.fst).Nodup)
    (hu : ∀ p ∈ m, strip p.2.url = p.1 ∧ p.1 ≠ []) :
    read_meta_csv (write_meta_csv m) = m := by
  have h := read_write_aux m [] (by simpa using hk) hu
  simpa [read_meta_csv] using h

/-- Counterexample to C9 as stated: a mapping with the non-empty key
`a` whose entry's `url` column is `b` (all nine values strings) reads
back keyed by `b`, not `a` — the keys are not preserved. -/
theorem C9_cache_roundtrip_counterexample :
    (read_meta_csv (write_meta_csv
        [("a".toList,
          { url := "b".toList, final_url := [], status_code := [], content_type := []
            title := [], description := [], robots_meta_noindex := []
            x_robots_tag := [], last_fetch_utc := [] })])).map Prod.fst ≠
      ["a".toList] := by
  decide

/-- Witness for C9 (amended) at a concrete one-entry cache keyed by its
own url column. -/
theorem C9_cache_roundtrip_witness :
    read_meta_csv (write_meta_csv
        [("https://a".toList,
          { url := "https://a".toList, final_url := [], status_code := []
            content_type := [], title := "T".toList, description := []
            robots_meta_noindex := [], x_robots_tag := [], last_fetch_utc := [] })]) =
      [("https://a".toList,
        { url := "https://a".toList, final_url := [], status_code := []
          content_type := [], title := "T".toList, description := []
          robots_meta_noindex := [], x_robots_tag := [], last_fetch_utc := [] })] :=
  C9_cache_roundtrip_amended _ (by decide) (by decide)

/-- C8: tag normalization is idempotent — `norm_tags (norm_tags s) =
norm_tags s` — and the result of `norm_tags s` is the comma-joined list
of the first at most 8 non-empty tokens of `s` split on commas and
whitespace. -/
theorem C8_norm_tags_idempotent (s : Str) :
    norm_tags (norm_tags s) = norm_tags s ∧
    norm_tags s = List.intercalate [','] ((tokens s).take 8) :=
  ⟨norm_tags_norm_tags s, norm_tags_eq s⟩

/-- C10: the output of `escape_html` contains none of `<`, `>`, `"`,
`'`, and every ampersand in the output starts one of the five entities
`&amp;`, `&lt;`, `&gt;`, `&quot;`, `&#39;` (any decomposition of the
output around an `&` continues with one of the entities). -/
theorem C10_escape_html_safety (s : Str) :
    (∀ y ∈ escape_html s, y ≠ '<' ∧ y ≠ '>' ∧ y ≠ '"' ∧ y ≠ '\'') ∧
    (∀ a b, escape_html s = a ++ '&' :: b →
      ∃ e ∈ ["&amp;".toList, "&lt;".toList, "&gt;".toList, "&quot;".toList,
        "&#39;".toList], e <+: ('&' :: b)) := by
  rw [escape_html_eq_flatMap]
  constructor
  · intro y hy
    rcases List.mem_flatMap.mp hy with ⟨c, _, hc⟩
    exact escChar_no_special hc
  · exact flatMap_escChar_amp s

/-- Witness for C10 at a concrete input: in `escape_html "a&<"`, the
character after `a` is an ampersand and an entity indeed follows. -/
theorem C10_escape_html_safety_witness :
    ('a' ∈ escape_html "a&<".toList → 'a' ≠ '<') ∧
    (∃ e ∈ ["&amp;".toList, "&lt;".toList, "&gt;".toList, "&quot;".toList,
      "&#39;".toList], e <+: ('&' :: "amp;&lt;".toList)) := by
  have h := C10_escape_html_safety "a&<".toList
  exact ⟨fun hy => (h.1 'a' hy).1,
    h.2 ['a'] "amp;&lt;".toList (by decide)⟩

end Hub
